import Mathlib

/-!
Shallow embedding of the garmincoach text-parsing and name-resolution core
(src/exercise_mapper.py and src/workout_parser.py).

Strings are modelled as `List Char`.  The scope of the model is the ASCII
behaviour of Python's `str` / `re` operations (the regex classes `\w`, `\s`,
`\d` are modelled over their ASCII members plus the explicit non-ASCII
characters appearing in the source patterns: ×, –, —, •); Python's
`re.match` backtracking semantics are hand-compiled into deterministic
functions, pattern by pattern.
-/

/-- Python `\s` (ASCII part): the whitespace characters recognised by
`str.strip`, `str.split` and the `\s` regex class
(space, tab, newline, carriage return, vertical tab, form feed),
stated on code points. -/
def isPySpace (c : Char) : Bool :=
  c.toNat = 32 ∨ c.toNat = 9 ∨ c.toNat = 10 ∨ c.toNat = 13 ∨
    c.toNat = 11 ∨ c.toNat = 12

/-- Python `\w` (ASCII part): digits, upper and lower case letters, and
underscore, stated on code points. -/
def isWordChar (c : Char) : Bool :=
  (48 ≤ c.toNat ∧ c.toNat ≤ 57) ∨ (65 ≤ c.toNat ∧ c.toNat ≤ 90) ∨
    (97 ≤ c.toNat ∧ c.toNat ≤ 122) ∨ c.toNat = 95

/-- Characters kept by `_normalize_name`'s `re.sub(r'[^\w\s-]', '', ...)`
and by `_to_garmin_format`'s first substitution. -/
def keptChar (c : Char) : Bool :=
  isWordChar c ∨ isPySpace c ∨ c.toNat = 45

/-- Python `str.lower` on ASCII: map A-Z to a-z, leave everything else. -/
def pyLower (c : Char) : Char :=
  if h : 65 ≤ c.toNat ∧ c.toNat ≤ 90 then
    Char.ofNatAux (c.toNat + 32) (Or.inl (by omega))
  else c

/-- Python `str.upper` on ASCII: map a-z to A-Z, leave everything else
(`_to_garmin_format`'s final `.upper()`). -/
def pyUpper (c : Char) : Char :=
  if h : 97 ≤ c.toNat ∧ c.toNat ≤ 122 then
    Char.ofNatAux (c.toNat - 32) (Or.inl (by omega))
  else c

/-- Python `str.strip()` with no argument: drop leading and trailing
whitespace. -/
def pyStrip (l : List Char) : List Char :=
  ((l.dropWhile isPySpace).reverse.dropWhile isPySpace).reverse

/-- The substitution `re.sub(r'\s+', ' ', name)` of `_normalize_name`:
every maximal run of whitespace becomes a single space. -/
def collapseWs : List Char → List Char
  | [] => []
  | [c] => [if isPySpace c then ' ' else c]
  | c :: d :: rest =>
    if isPySpace c ∧ isPySpace d then collapseWs (d :: rest)
    else (if isPySpace c then ' ' else c) :: collapseWs (d :: rest)

/-- `ExerciseMapper._normalize_name`: lower-case, strip, collapse whitespace
runs to single spaces, then delete every character outside `[\w\s-]`. -/
def normalizeName (name : List Char) : List Char :=
  let n1 := pyStrip (name.map pyLower)
  (collapseWs n1).filter keptChar

/-- The substitution `re.sub(r'[\s-]+', '_', ...)` of `_to_garmin_format`:
every maximal run of whitespace or hyphens becomes one underscore. -/
def collapseUnd : List Char → List Char
  | [] => []
  | [c] => [if isPySpace c ∨ c = '-' then '_' else c]
  | c :: d :: rest =>
    if (isPySpace c ∨ c = '-') ∧ (isPySpace d ∨ d = '-') then collapseUnd (d :: rest)
    else (if isPySpace c ∨ c = '-' then '_' else c) :: collapseUnd (d :: rest)

/-- `ExerciseMapper._to_garmin_format`: delete characters outside `[\w\s-]`,
turn whitespace/hyphen runs into underscores, upper-case. -/
def garminFormat (name : List Char) : List Char :=
  (collapseUnd (name.filter keptChar)).map pyUpper

/-! ## Fuzzy matching (`thefuzz`): `fuzz.token_sort_ratio` and
`process.extractBests` as used by `ExerciseMapper.map_exercise`.

`thefuzz` delegates scoring to `rapidfuzz`: `token_sort_ratio` applies
`utils.full_process` to both strings, splits them into whitespace tokens,
sorts the tokens, joins them with single spaces, and scores the two joined
strings with the normalized indel similarity
`100 * 2*lcs(a,b) / (len a + len b)` (100 for two empty strings), finally
rounded to an integer with Python's `round` (half to even). -/

/-- Longest common subsequence length, fuelled so that it reduces in the
kernel; `fuel = |a| + |b|` always suffices. -/
def lcsF : Nat → List Char → List Char → Nat
  | 0, _, _ => 0
  | _ + 1, [], _ => 0
  | _ + 1, _ :: _, [] => 0
  | f + 1, a :: s, b :: t =>
    if a = b then 1 + lcsF f s t
    else max (lcsF f s (b :: t)) (lcsF f (a :: s) t)

/-- Longest common subsequence length of two character lists. -/
def lcs (a b : List Char) : Nat := lcsF (a.length + b.length) a b

/-- Python's `round` for a non-negative rational `num/den` (`den > 0`):
round half to even, as applied by thefuzz to the rapidfuzz score. -/
def pyRound (num den : Nat) : Nat :=
  let q := num / den
  let r := num % den
  if 2 * r < den then q
  else if den < 2 * r then q + 1
  else if q % 2 = 0 then q else q + 1

/-- Normalized indel similarity of rapidfuzz on two processed strings,
scaled to 0-100 and rounded: `round(100 * 2*lcs / (|a| + |b|))`, with the
convention that two empty strings score 100. -/
def indelSim (a b : List Char) : Nat :=
  if a.length + b.length = 0 then 100
  else pyRound (200 * lcs a b) (a.length + b.length)

/-- `thefuzz.utils.full_process` (with `force_ascii`): replace every
non-`\w` character by a space, lower-case, strip.  (Characters outside the
ASCII `\w` class are treated uniformly as token separators/removed, which
agrees with `ascii_only` followed by `\W → ' '` on which tokens survive.) -/
def fullProcess (s : List Char) : List Char :=
  pyStrip ((s.map (fun c => if isWordChar c then c else ' ')).map pyLower)

/-- Python string `<` (lexicographic by code point), used by `sorted`. -/
def lexLt : List Char → List Char → Bool
  | [], [] => false
  | [], _ :: _ => true
  | _ :: _, [] => false
  | a :: s, b :: t => if a = b then lexLt s t else decide (a.toNat < b.toNat)

/-- Insert a token into an already sorted token list (ascending `lexLt`). -/
def insertTok (x : List Char) : List (List Char) → List (List Char)
  | [] => [x]
  | y :: ys => if lexLt y x then y :: insertTok x ys else x :: y :: ys

/-- Python `sorted` on a list of strings (insertion sort; stable, but the
elements compared equal are identical strings, so order is the sorted one). -/
def sortToks : List (List Char) → List (List Char)
  | [] => []
  | x :: xs => insertTok x (sortToks xs)

/-- Python `str.split()` with no argument: whitespace-run separated tokens,
no empty tokens.  The accumulator holds the current token reversed. -/
def pySplitAux : List Char → List Char → List (List Char)
  | [], acc => if acc = [] then [] else [acc.reverse]
  | c :: rest, acc =>
    if isPySpace c then
      if acc = [] then pySplitAux rest [] else acc.reverse :: pySplitAux rest []
    else pySplitAux rest (c :: acc)

/-- Python `str.split()` on a character list. -/
def pySplit (l : List Char) : List (List Char) := pySplitAux l []

/-- Join tokens with single spaces (`" ".join(...)`). -/
def joinSp : List (List Char) → List Char
  | [] => []
  | [t] => t
  | t :: ts => t ++ ' ' :: joinSp ts

/-- `_process_and_sort` of `token_sort_ratio`: full-process, split into
tokens, sort them, join with spaces, strip. -/
def tokenSortProcess (s : List Char) : List Char :=
  pyStrip (joinSp (sortToks (pySplit (fullProcess s))))

/-- `fuzz.token_sort_ratio` on two raw strings. -/
def tokenSortScore (a b : List Char) : Nat :=
  indelSim (tokenSortProcess a) (tokenSortProcess b)

/-! ## Catalog (`exercise_map` dict) and `ExerciseMapper` operations. -/

/-- A catalog entry: the value dict stored under a normalized key
(`garmin_name`, `garmin_category`, `muscles`). -/
structure GarminEntry where
  gName : List Char
  gCategory : List Char
  muscles : List (List Char)
deriving DecidableEq

/-- The in-memory `exercise_map`: a Python dict modelled as an association
list in insertion order (Python 3.7+ dicts preserve insertion order, which
is observable through `process.extractBests` tie-breaking). -/
abbrev Catalog := List (List Char × GarminEntry)

/-- Keys of the catalog, in iteration order. -/
def dictKeys (m : Catalog) : List (List Char) := m.map Prod.fst

/-- Python dict lookup (`m[k]` / `k in m`). -/
def dictLookup : Catalog → List Char → Option GarminEntry
  | [], _ => none
  | (k', v) :: rest, k => if k' = k then some v else dictLookup rest k

/-- Python dict assignment `m[k] = v`: overwrite in place if the key exists
(keeping its position), otherwise append at the end. -/
def dictInsert : Catalog → List Char → GarminEntry → Catalog
  | [], k, v => [(k, v)]
  | (k', v') :: rest, k, v =>
    if k' = k then (k, v) :: rest else (k', v') :: dictInsert rest k v

/-- The synthesized fallback entry of `map_exercise` for an unknown name:
upper-snake name, category `"UNKNOWN"`, no muscles. -/
def mkUnknown (name : List Char) : GarminEntry :=
  ⟨garminFormat name, ['U', 'N', 'K', 'N', 'O', 'W', 'N'], []⟩

/-- The head of `process.extractBests(query, keys, scorer=token_sort_ratio,
limit=3)`: the first (in dict iteration order) key attaining the maximal
score, together with its entry and score.  `heapq.nlargest` is stable, so a
later candidate replaces the current best only with a strictly greater
score.  Returns `none` exactly on the empty catalog. -/
def bestFuzzy (q : List Char) : Catalog → Option (List Char × GarminEntry × Nat)
  | [] => none
  | (k, e) :: rest =>
    let s := tokenSortScore q k
    match bestFuzzy q rest with
    | none => some (k, e, s)
    | some (k', e', s') => if s < s' then some (k', e', s') else some (k, e, s)

/-- `ExerciseMapper.map_exercise`: normalize, try the exact lookup
(confidence 100), otherwise fuzzy-match against all keys and accept the
best score if it is at least 70, otherwise return the synthesized unknown
entry with confidence 0. -/
def mapExercise (m : Catalog) (name : List Char) : GarminEntry × Nat :=
  match dictLookup m (normalizeName name) with
  | some e => (e, 100)
  | none =>
    match bestFuzzy (normalizeName name) m with
    | some (_, e, s) => if 70 ≤ s then (e, s) else (mkUnknown name, 0)
    | none => (mkUnknown name, 0)

/-- `ExerciseMapper.add_mapping`: insert the entry under the normalized
name (the durable-write side effect is out of scope of this model). -/
def addMapping (m : Catalog) (name gname category : List Char)
    (muscles : List (List Char)) : Catalog :=
  dictInsert m (normalizeName name) ⟨gname, category, muscles⟩

/-- `ExerciseMapper._load_map`: the `exercises` field of the storage
document is taken as-is (no normalization); a missing or corrupt file
yields the empty mapping. -/
def loadMap (storage : Option Catalog) : Catalog := storage.getD []

/-! ## WorkoutParser: the ordered regex rules of `parse_exercise_line`.

Each of the six patterns of `WorkoutParser.__init__` is compiled by hand
into a deterministic function with the same `re.match` semantics
(leftmost-preferred for lazy `(.+?)`, greedy elsewhere; `.` never matches a
newline; the patterns are anchored with `$` = end of string, exact here
because the parser always matches against stripped lines, which cannot end
in a newline). -/

/-- One character of the `[x×]` class under `re.IGNORECASE`. -/
def isXChar (c : Char) : Bool := c = 'x' ∨ c = 'X' ∨ c = '×'

/-- The `[-–]` class (hyphen, en dash) used for rep ranges. -/
def isDashRange (c : Char) : Bool := c = '-' ∨ c = '–'

/-- The `[-–\s]` separator class of the `name_sets_reps` pattern. -/
def isSepNSR (c : Char) : Bool := isDashRange c ∨ isPySpace c

/-- The `[-–—:]` separator class of the `verbose` pattern. -/
def isSepVerb (c : Char) : Bool := isDashRange c ∨ c = '—' ∨ c = ':'

/-- The `[-–—:\s]` separator class of the `duration` pattern. -/
def isSepDur (c : Char) : Bool := isSepVerb c ∨ isPySpace c

/-- Skip the `\s*` of a pattern (greedy, and never subject to backtracking
at the positions where it occurs in these patterns). -/
def skipWs (l : List Char) : List Char := l.dropWhile isPySpace

/-- True when the list contains no newline (a `(.+)` capture must consist
of non-newline characters). -/
def noNL (l : List Char) : Bool := l.all (fun c => if c = '\n' then false else true)

/-- `int(...)` on a `\d+` capture. -/
def digitsToNat (l : List Char) : Nat :=
  l.foldl (fun n c => 10 * n + (c.toNat - 48)) 0

/-- Case-insensitive literal match (the literal is given in lowercase):
returns the remainder after the literal, or `none`. -/
def startsCIc : List Char → List Char → Option (List Char)
  | t, [] => some t
  | [], _ :: _ => none
  | c :: t, p :: ps => if pyLower c = p then startsCIc t ps else none

/-- Matcher for a trailing `\s+(.+)$`: requires at least one whitespace
character, then captures the rest.  When everything after the whitespace
run is empty, `re` backtracks so that `(.+)` captures the final whitespace
character (when there are at least two and the last is not a newline). -/
def wsPlusRest (t : List Char) : Option (List Char) :=
  match t with
  | [] => none
  | c :: _ =>
    if isPySpace c then
      let r := t.dropWhile isPySpace
      if r ≠ [] then (if noNL r then some r else none)
      else
        match t.getLast? with
        | some c' => if 2 ≤ t.length ∧ c' ≠ '\n' then some [c'] else none
        | none => none
    else none

/-- The ordered remainders that the unit alternation
`(?:sec(?:onds?)?|s)` (case-insensitive) can leave, in backtracking
preference order: `seconds`, then `second`, then bare `sec`, then the
single-letter `s` branch. -/
def unitRems (t : List Char) : List (List Char) :=
  (match startsCIc t ['s', 'e', 'c'] with
   | some t1 =>
     (match startsCIc t1 ['o', 'n', 'd'] with
      | some t2 =>
        (match startsCIc t2 ['s'] with
         | some t3 => [t3, t2]
         | none => [t2]) ++ [t1]
      | none => [t1])
   | none => []) ++
  (match startsCIc t ['s'] with
   | some t4 => [t4]
   | none => [])

/-- Try a continuation on each alternative remainder, in order (regex
alternation backtracking). -/
def tryCands {α : Type} : List (List Char) → (List Char → Option α) → Option α
  | [], _ => none
  | c :: cs, f =>
    match f c with
    | some r => some r
    | none => tryCands cs f

/-- Lazy-split driver for a leading `(.+?)`: try the shortest prefix
first, growing one character at a time; a prefix can never contain a
newline.  `f` receives the candidate capture and the remaining suffix. -/
def lazySplit {α : Type} (f : List Char → List Char → Option α) :
    List Char → List Char → Option α
  | _, [] => none
  | pre, c :: rest =>
    if c = '\n' then none
    else
      match f (pre ++ [c]) rest with
      | some r => some r
      | none => lazySplit f (pre ++ [c]) rest

/-- Pattern `sets_reps_name`: `^(\d+)\s*[x×]\s*(\d+)[-–]?(\d+)?\s+(.+)$`
(e.g. `4x8 Pull-ups`).  Returns (sets, reps, reps_high?, name). -/
def pSetsRepsName (l : List Char) : Option (Nat × Nat × Option Nat × List Char) :=
  let (d1, t1) := l.span Char.isDigit
  if d1 = [] then none
  else
    match skipWs t1 with
    | [] => none
    | c :: t3 =>
      if isXChar c then
        let (d2, t5) := (skipWs t3).span Char.isDigit
        if d2 = [] then none
        else
          let t6 :=
            match t5 with
            | c2 :: t5' =>
              if isDashRange c2 then
                (let (d3, t6') := t5'.span Char.isDigit
                 (if d3 = [] then none else some (digitsToNat d3), t6'))
              else (none, t5)
            | [] => (none, t5)
          match wsPlusRest t6.2 with
          | some nm => some (digitsToNat d1, digitsToNat d2, t6.1, nm)
          | none => none
      else none

/-- Suffix matcher of `name_sets_reps` after the lazy `(.+?)`:
`[-–\s]+(\d+)\s*[x×]\s*(\d+)[-–]?(\d+)?$`. -/
def pNameSetsRepsSuffix (g1 s : List Char) :
    Option (List Char × Nat × Nat × Option Nat) :=
  match s with
  | [] => none
  | c :: _ =>
    if isSepNSR c then
      let (d1, t2) := (s.dropWhile isSepNSR).span Char.isDigit
      if d1 = [] then none
      else
        match skipWs t2 with
        | [] => none
        | x :: t4 =>
          if isXChar x then
            let (d2, t6) := (skipWs t4).span Char.isDigit
            if d2 = [] then none
            else
              match t6 with
              | [] => some (g1, digitsToNat d1, digitsToNat d2, none)
              | c2 :: t7 =>
                if isDashRange c2 then
                  match t7 with
                  | [] => some (g1, digitsToNat d1, digitsToNat d2, none)
                  | _ =>
                    let (d3, t8) := t7.span Char.isDigit
                    if d3 ≠ [] ∧ t8 = [] then
                      some (g1, digitsToNat d1, digitsToNat d2, some (digitsToNat d3))
                    else none
                else none
          else none
    else none

/-- Pattern `name_sets_reps`: `^(.+?)[-–\s]+(\d+)\s*[x×]\s*(\d+)[-–]?(\d+)?$`
(e.g. `Pull-ups 4x8`).  Returns (name, sets, reps, reps_high?). -/
def pNameSetsReps (l : List Char) : Option (List Char × Nat × Nat × Option Nat) :=
  lazySplit pNameSetsRepsSuffix [] l

/-- Suffix matcher of `verbose` after the lazy `(.+?)`:
`[-–—:]+\s*(\d+)\s*sets?\s*[x×,]\s*(\d+)[-–]?(\d+)?\s*reps?` (no `$`:
trailing text is allowed). -/
def pVerboseSuffix (g1 s : List Char) :
    Option (List Char × Nat × Nat × Option Nat) :=
  match s with
  | [] => none
  | c :: _ =>
    if isSepVerb c then
      let (d1, t2) := (skipWs (s.dropWhile isSepVerb)).span Char.isDigit
      if d1 = [] then none
      else
        match startsCIc (skipWs t2) ['s', 'e', 't'] with
        | none => none
        | some t4 =>
          let t5 := match startsCIc t4 ['s'] with
                    | some t4' => t4'
                    | none => t4
          match skipWs t5 with
          | [] => none
          | x :: t7 =>
            if isXChar x ∨ x = ',' then
              let (d2, t9) := (skipWs t7).span Char.isDigit
              if d2 = [] then none
              else
                let t10 := match t9 with
                           | c2 :: t9' => if isDashRange c2 then t9' else t9
                           | [] => t9
                let (d3, t11) := t10.span Char.isDigit
                match startsCIc (skipWs t11) ['r', 'e', 'p'] with
                | some _ =>
                  some (g1, digitsToNat d1, digitsToNat d2,
                        if d3 = [] then none else some (digitsToNat d3))
                | none => none
            else none
    else none

/-- Pattern `verbose`: e.g. `Pull-ups — 4 sets × 8 reps`. -/
def pVerbose (l : List Char) : Option (List Char × Nat × Nat × Option Nat) :=
  lazySplit pVerboseSuffix [] l

/-- Pattern `sets_duration_name`:
`^(\d+)\s*[x×]\s*(\d+)\s*(?:sec(?:onds?)?|s)\s+(.+)$`
(e.g. `2×30sec Dead hang`).  Returns (sets, duration, name). -/
def pSetsDurName (l : List Char) : Option (Nat × Nat × List Char) :=
  let (d1, t1) := l.span Char.isDigit
  if d1 = [] then none
  else
    match skipWs t1 with
    | [] => none
    | x :: t3 =>
      if isXChar x then
        let (d2, t5) := (skipWs t3).span Char.isDigit
        if d2 = [] then none
        else
          tryCands (unitRems (skipWs t5)) (fun r =>
            match wsPlusRest r with
            | some nm => some (digitsToNat d1, digitsToNat d2, nm)
            | none => none)
      else none

/-- Suffix matcher of `duration` after the lazy `(.+?)`:
`[-–—:\s]+(\d+)\s*(?:sec(?:onds?)?|s)$`. -/
def pDurationSuffix (g1 s : List Char) : Option (List Char × Nat) :=
  match s with
  | [] => none
  | c :: _ =>
    if isSepDur c then
      let (d, t2) := (s.dropWhile isSepDur).span Char.isDigit
      if d = [] then none
      else
        tryCands (unitRems (skipWs t2)) (fun r =>
          if r = [] then some (g1, digitsToNat d) else none)
    else none

/-- Pattern `duration`: e.g. `Dead hang — 30 sec`, `Plank - 60s`.
Returns (name, duration). -/
def pDuration (l : List Char) : Option (List Char × Nat) :=
  lazySplit pDurationSuffix [] l

/-- Continuation of `sets_of_name` after `sets?`: `\s*(?:of\s+)?(.+)$`,
with the backtracking `re` performs when a greedy `\s*`/`\s+` would leave
`(.+)` nothing to capture. -/
def pSetsOfCont (t : List Char) : Option (List Char) :=
  let t1 := t.dropWhile isPySpace
  let ofCand : Option (List Char) :=
    match startsCIc t1 ['o', 'f'] with
    | some t2 =>
      match t2 with
      | [] => none
      | c :: _ =>
        if isPySpace c then
          let r := t2.dropWhile isPySpace
          if r ≠ [] then (if noNL r then some r else none)
          else
            match t2.getLast? with
            | some c' => if 2 ≤ t2.length ∧ c' ≠ '\n' then some [c'] else none
            | none => none
        else none
    | none => none
  match ofCand with
  | some r => some r
  | none =>
    if t1 ≠ [] then (if noNL t1 then some t1 else none)
    else
      match t.getLast? with
      | some c' => if c' ≠ '\n' then some [c'] else none
      | none => none

/-- Pattern `sets_of_name`: `^(\d+)\s*sets?\s*(?:of\s+)?(.+)$`
(e.g. `3 sets of Push-ups`).  Returns (sets, name). -/
def pSetsOfName (l : List Char) : Option (Nat × List Char) :=
  let (d1, t1) := l.span Char.isDigit
  if d1 = [] then none
  else
    match startsCIc (skipWs t1) ['s', 'e', 't'] with
    | none => none
    | some t3 =>
      match startsCIc t3 ['s'] with
      | some t3' =>
        (match pSetsOfCont t3' with
         | some nm => some (digitsToNat d1, nm)
         | none =>
           match pSetsOfCont t3 with
           | some nm => some (digitsToNat d1, nm)
           | none => none)
      | none =>
        match pSetsOfCont t3 with
        | some nm => some (digitsToNat d1, nm)
        | none => none

/-! ## `parse_exercise_line`: skip rules, rule dispatch, mapping. -/

/-- Skip pattern `^warm[\s-]?up` / `^cool[\s-]?down` (case-insensitive,
`re.match` so only a prefix is required).  `word1` and `word2` are the two
lowercase literals around the optional `[\s-]` character. -/
def skipOptSep (l word1 word2 : List Char) : Bool :=
  match startsCIc l word1 with
  | none => false
  | some t =>
    ((startsCIc t word2).isSome ||
      (match t with
       | c :: t' => (isPySpace c || c = '-') && (startsCIc t' word2).isSome
       | [] => false))

/-- Skip pattern `^\d+\s*min`: a bare minutes line. -/
def skipMin (l : List Char) : Bool :=
  let (d, t) := l.span Char.isDigit
  d ≠ [] ∧ (startsCIc (skipWs t) ['m', 'i', 'n']).isSome

/-- The skip rules of `parse_exercise_line` (already-stripped line):
warm-up, cool-down, stretch, rest, bare minutes, separator lines of
repeated em dashes or hyphens. -/
def isSkipLine (l : List Char) : Bool :=
  skipOptSep l ['w', 'a', 'r', 'm'] ['u', 'p'] ∨
  skipOptSep l ['c', 'o', 'o', 'l'] ['d', 'o', 'w', 'n'] ∨
  (startsCIc l ['s', 't', 'r', 'e', 't', 'c', 'h']).isSome ∨
  (startsCIc l ['r', 'e', 's', 't']).isSome ∨
  skipMin l ∨
  (l ≠ [] ∧ l.all (fun c => if c = '—' then true else false)) ∨
  (l ≠ [] ∧ l.all (fun c => if c = '-' then true else false))

/-- Kind tag of a parsed exercise line (`"type"` field). -/
inductive ExKind where
  | reps
  | duration
deriving DecidableEq

/-- The dict built for one parsed exercise line.  Keys that a given rule
does not set are modelled as `none` (`reps` is set by every reps rule,
`durationSeconds` by every duration rule). -/
structure ExRec where
  rawName : List Char
  sets : Nat
  reps : Option Nat
  repsHigh : Option Nat
  durationSeconds : Option Nat
  kind : ExKind
  gName : List Char
  gCategory : List Char
  muscles : List (List Char)
  confidence : Nat
  sectionTag : Option (List Char)
deriving DecidableEq

/-- The rule dispatch of `parse_exercise_line` on an already-stripped,
non-skipped line: the six patterns in source order, then the bare-name
fallback guarded by `len(line) > 3 and not line.endswith(':')`.  Captured
names are stripped (`name.strip()`); the fallback uses the line itself.
Returns the pre-mapping fields (raw name, sets, reps, range, duration,
kind). -/
def classify (l : List Char) :
    Option (List Char × Nat × Option Nat × Option Nat × Option Nat × ExKind) :=
  match pSetsRepsName l with
  | some (s, r, rh, nm) => some (pyStrip nm, s, some r, rh, none, .reps)
  | none =>
  match pNameSetsReps l with
  | some (nm, s, r, rh) => some (pyStrip nm, s, some r, rh, none, .reps)
  | none =>
  match pVerbose l with
  | some (nm, s, r, rh) => some (pyStrip nm, s, some r, rh, none, .reps)
  | none =>
  match pSetsDurName l with
  | some (s, d, nm) => some (pyStrip nm, s, none, none, some d, .duration)
  | none =>
  match pDuration l with
  | some (nm, d) => some (pyStrip nm, 1, none, none, some d, .duration)
  | none =>
  match pSetsOfName l with
  | some (s, nm) => some (pyStrip nm, s, some 10, none, none, .reps)
  | none =>
  if 3 < l.length ∧ l.getLast? ≠ some ':' then
    some (l, 3, some 10, none, none, .reps)
  else none

/-- Attach the `map_exercise` result fields to a classified line. -/
def attachMapping (m : Catalog)
    (b : List Char × Nat × Option Nat × Option Nat × Option Nat × ExKind) : ExRec :=
  match b with
  | (raw, sets, reps, rh, dur, k) =>
    ⟨raw, sets, reps, rh, dur, k,
     (mapExercise m raw).1.gName, (mapExercise m raw).1.gCategory,
     (mapExercise m raw).1.muscles, (mapExercise m raw).2, none⟩

/-- The body of `parse_exercise_line` on the already-stripped line:
drop blank/comment lines, drop skip-rule lines, classify by the ordered
rules, then resolve the raw name through `map_exercise`. -/
def parseStripped (m : Catalog) (l : List Char) : Option ExRec :=
  if l = [] then none
  else if l.head? = some '#' then none
  else if l.take 2 = ['/', '/'] then none
  else if isSkipLine l then none
  else (classify l).map (attachMapping m)

/-- `WorkoutParser.parse_exercise_line`: strip the line, then classify
and resolve it. -/
def parseExerciseLine (m : Catalog) (line : List Char) : Option ExRec :=
  parseStripped m (pyStrip line)

/-! ## `parse_workout` and `to_garmin_format`. -/

/-- Python `text.split('\n')` on character lists (`''.split('\n') == ['']`). -/
def splitNL : List Char → List (List Char)
  | [] => [[]]
  | c :: rest =>
    if c = '\n' then [] :: splitNL rest
    else
      match splitNL rest with
      | [] => [[c]]
      | l :: ls => (c :: l) :: ls

/-- Does the stripped line start one of the list-marker prefixes
`('- ', '• ', '* ', '1.', '2.', '3.', '4.', '5.')`? -/
def startsMarker (l : List Char) : Bool :=
  match l with
  | a :: b :: _ =>
    ((a = '-' ∨ a = '•' ∨ a = '*') && b = ' ') ||
      ((a = '1' ∨ a = '2' ∨ a = '3' ∨ a = '4' ∨ a = '5') && b = '.')
  | _ => false

/-- `re.sub(r'^[-•*]\s*', '', line)`: drop one bullet character and the
whitespace after it. -/
def subBullet (l : List Char) : List Char :=
  match l with
  | c :: rest => if c = '-' ∨ c = '•' ∨ c = '*' then rest.dropWhile isPySpace else l
  | [] => l

/-- `re.sub(r'^\d+\.\s*', '', line)`: drop leading digits, a dot, and the
whitespace after them. -/
def subEnum (l : List Char) : List Char :=
  let (d, t) := l.span Char.isDigit
  if d = [] then l
  else
    match t with
    | c :: t' => if c = '.' then t'.dropWhile isPySpace else l
    | [] => l

/-- The list-marker stripping of `parse_workout` (both substitutions are
applied only when the line starts with one of the marker prefixes). -/
def stripMarker (l : List Char) : List Char :=
  if startsMarker l then subEnum (subBullet l) else l

/-- The section-header name: `line.rstrip(':').lstrip('#').strip()`. -/
def sectionName (l : List Char) : List Char :=
  pyStrip (((l.reverse.dropWhile (fun c => c = ':')).reverse).dropWhile (fun c => c = '#'))

/-- The low-confidence warning string
`f"Low confidence mapping for '{raw}' -> '{garmin}' ({conf}%)"`. -/
def lowConfMsg (e : ExRec) : List Char :=
  ['L', 'o', 'w', ' ', 'c', 'o', 'n', 'f', 'i', 'd', 'e', 'n', 'c', 'e', ' ',
   'm', 'a', 'p', 'p', 'i', 'n', 'g', ' ', 'f', 'o', 'r', ' ', '\''] ++
  e.rawName ++ ['\'', ' ', '-', '>', ' ', '\''] ++ e.gName ++
  ['\'', ' ', '('] ++ Nat.toDigits 10 e.confidence ++ ['%', ')']

/-- The result dict of `parse_workout`. -/
structure ParsedWorkout where
  wName : List Char
  exercises : List ExRec
  exerciseCount : Nat
  warnings : List (List Char)
deriving DecidableEq

/-- The line loop of `parse_workout`: strip each line, treat lines ending
in `:` or starting with `##` as section headers, strip list markers, parse
the rest, and record a warning for every parsed line whose mapping
confidence is below 70.  Returns (exercises, warnings) in input order. -/
def pwGo (m : Catalog) : List (List Char) → Option (List Char) →
    List ExRec × List (List Char)
  | [], _ => ([], [])
  | line :: rest, sec =>
    if (pyStrip line).getLast? = some ':' ∨ (pyStrip line).take 2 = ['#', '#'] then
      pwGo m rest (some (sectionName (pyStrip line)))
    else
      match parseExerciseLine m (stripMarker (pyStrip line)) with
      | some e =>
        ({ e with sectionTag := sec } :: (pwGo m rest sec).1,
         (if e.confidence < 70 then [lowConfMsg { e with sectionTag := sec }] else []) ++
           (pwGo m rest sec).2)
      | none => pwGo m rest sec

/-- `WorkoutParser.parse_workout`. -/
def parseWorkout (m : Catalog) (text wname : List Char) : ParsedWorkout :=
  ⟨wname, (pwGo m (splitNL (pyStrip text)) none).1,
   (pwGo m (splitNL (pyStrip text)) none).1.length,
   (pwGo m (splitNL (pyStrip text)) none).2⟩

/-- A `stepType` / `endCondition` sub-dict: an id together with its key. -/
structure TypeTag where
  typeId : Nat
  typeKey : List Char
deriving DecidableEq

/-- An `ExecutableStepDTO` of `to_garmin_format` (the fields this model
tracks; `endConditionValue` is a whole number in every step the source
builds, so it is modelled as `Nat`).  The rest step carries no
category/exerciseName keys, modelled as `none`. -/
structure ExecStep where
  stepOrder : Nat
  stepType : TypeTag
  endCondition : TypeTag
  endConditionValue : Nat
  category : Option (List Char)
  exerciseName : Option (List Char)
deriving DecidableEq

/-- A `RepeatGroupDTO` of `to_garmin_format`. -/
structure RepeatGroup where
  stepOrder : Nat
  stepType : TypeTag
  numberOfIterations : Nat
  workoutSteps : List ExecStep
deriving DecidableEq

/-- The work (interval) step for one exercise: rep-count end condition for
reps exercises, time end condition for duration exercises. -/
def mkWorkStep (e : ExRec) (so : Nat) : ExecStep :=
  { stepOrder := so
    stepType := ⟨3, ['i', 'n', 't', 'e', 'r', 'v', 'a', 'l']⟩
    endCondition :=
      if e.kind = .duration then ⟨2, ['t', 'i', 'm', 'e']⟩
      else ⟨10, ['r', 'e', 'p', 's']⟩
    endConditionValue :=
      if e.kind = .duration then e.durationSeconds.getD 30 else e.reps.getD 10
    category := some e.gCategory
    exerciseName := some e.gName }

/-- The rest step following each work step (`lap.button` end condition). -/
def mkRestStep (so : Nat) : ExecStep :=
  { stepOrder := so
    stepType := ⟨5, ['r', 'e', 's', 't']⟩
    endCondition := ⟨1, ['l', 'a', 'p', '.', 'b', 'u', 't', 't', 'o', 'n']⟩
    endConditionValue := 0
    category := none
    exerciseName := none }

/-- The `RepeatGroupDTO` built for one exercise at step order `so`:
`numberOfIterations = sets`, containing the work step at `so + 1` and the
rest step at `so + 2`. -/
def mkRepeatGroup (e : ExRec) (so : Nat) : RepeatGroup :=
  ⟨so, ⟨6, ['r', 'e', 'p', 'e', 'a', 't']⟩, e.sets,
   [mkWorkStep e (so + 1), mkRestStep (so + 2)]⟩

/-- The step loop of `to_garmin_format`: one repeat group per exercise,
step order starting at 1 and advancing by 3 per exercise. -/
def buildSteps : List ExRec → Nat → List RepeatGroup
  | [], _ => []
  | e :: rest, so => mkRepeatGroup e so :: buildSteps rest (so + 3)

/-- The Garmin workout payload (the fields this model tracks: name and the
single strength segment's step list). -/
structure GarminWorkout where
  workoutName : List Char
  workoutSteps : List RepeatGroup
deriving DecidableEq

/-- `WorkoutParser.to_garmin_format`. -/
def toGarminFormat (w : ParsedWorkout) : GarminWorkout :=
  ⟨w.wName, buildSteps w.exercises 1⟩

/-- The step orders appearing in one repeat group (the group's own order
followed by its steps' orders). -/
def ordersOf (g : RepeatGroup) : List Nat :=
  g.stepOrder :: g.workoutSteps.map ExecStep.stepOrder

/-- Shape invariant of collapsed output: every whitespace character is a
plain space, and no two adjacent characters are both whitespace. -/
def wsFlat : List Char → Prop
  | [] => True
  | [c] => isPySpace c = true → c = ' '
  | a :: b :: t =>
    (isPySpace a = true → a = ' ') ∧ ¬(isPySpace a ∧ isPySpace b) ∧ wsFlat (b :: t)

/-- The warning a line contributes, if any: one low-confidence message
when its mapping confidence is below 70. -/
def warnOf (e : ExRec) : Option (List Char) :=
  if e.confidence < 70 then some (lowConfMsg e) else none

/-- One `add_mapping` call: the arguments of the operation. -/
structure AddOp where
  aName : List Char
  aGName : List Char
  aCategory : List Char
  aMuscles : List (List Char)

/-- A sequence of `add_mapping` calls applied to a catalog state. -/
def applyAdds (m : Catalog) : List AddOp → Catalog
  | [] => m
  | op :: rest => applyAdds (addMapping m op.aName op.aGName op.aCategory op.aMuscles) rest

/-! ## Concrete inputs used by the claim-level theorems. -/

/-- The spec scenario line `2×30 sec Dead hang`. -/
def c1Line : List Char :=
  ['2', '×', '3', '0', ' ', 's', 'e', 'c', ' ', 'D', 'e', 'a', 'd', ' ', 'h', 'a', 'n', 'g']

/-- The record the code actually produces for `c1Line` over an empty
catalog: the `sets_reps_name` rule fires first, so the line is read as 2
sets of 30 reps of an exercise named `sec Dead hang`. -/
def c1Expected : ExRec :=
  ⟨['s', 'e', 'c', ' ', 'D', 'e', 'a', 'd', ' ', 'h', 'a', 'n', 'g'], 2, some 30, none,
   none, ExKind.reps,
   ['S', 'E', 'C', '_', 'D', 'E', 'A', 'D', '_', 'H', 'A', 'N', 'G'],
   ['U', 'N', 'K', 'N', 'O', 'W', 'N'], [], 0, none⟩

/-- A catalog entry for the key `bench press`. -/
def entryBench : GarminEntry :=
  ⟨['B', 'E', 'N', 'C', 'H', '_', 'P', 'R', 'E', 'S', 'S'],
   ['S', 'T', 'R', 'E', 'N', 'G', 'T', 'H'], []⟩

/-- The normalized catalog key `bench press`. -/
def keyBench : List Char := ['b', 'e', 'n', 'c', 'h', ' ', 'p', 'r', 'e', 's', 's']

/-- The query `Press Bench`: a word permutation of the key, not a key. -/
def qPressBench : List Char := ['P', 'r', 'e', 's', 's', ' ', 'B', 'e', 'n', 'c', 'h']

/-- The query `Bench Press`, which normalizes to the exact key. -/
def qBenchPress : List Char := ['B', 'e', 'n', 'c', 'h', ' ', 'P', 'r', 'e', 's', 's']

/-- The string `a .` on which normalization is not idempotent. -/
def c3Bad : List Char := ['a', ' ', '.']

/-- A string of kept characters only. -/
def c3Kept : List Char := [' ', 'A', ' ', ' ', 'b', '-', 'c']

/-- A normalized one-entry storage document. -/
def c4Storage : Catalog :=
  [(['p', 'u', 'l', 'l', ' ', 'u', 'p'],
    ⟨['P', 'U', 'L', 'L', '_', 'U', 'P'], ['S', 'T', 'R', 'E', 'N', 'G', 'T', 'H'], []⟩)]

/-- One `add_mapping` call with a clean (kept-characters-only) name. -/
def c4Ops : List AddOp :=
  [⟨['B', 'e', 'n', 'c', 'h', ' ', 'P', 'r', 'e', 's', 's'],
    ['B', 'E', 'N', 'C', 'H', '_', 'P', 'R', 'E', 'S', 'S'],
    ['S', 'T', 'R', 'E', 'N', 'G', 'T', 'H'], []⟩]

/-- A short line (`abc`) that no rule catches. -/
def c5Bad : List Char := ['a', 'b', 'c']

/-- A bare exercise-name line caught by the fallback rule. -/
def c5Good : List Char := ['R', 'u', 'n', ' ', 'h', 'i', 'l', 'l', 's']

/-- A reps exercise record for the step-structure witness. -/
def c7E1 : ExRec :=
  ⟨['a'], 4, some 8, none, none, ExKind.reps, ['A'], ['S'], [], 100, none⟩

/-- A duration exercise record for the step-structure witness. -/
def c7E2 : ExRec :=
  ⟨['b'], 2, none, none, some 30, ExKind.duration, ['B'], ['S'], [], 100, none⟩

/-- A two-line parsed workout for the step-structure witness. -/
def c7W : ParsedWorkout := ⟨['W'], [c7E1, c7E2], 2, []⟩

/-- Entry of the first-inserted catalog key `b a`. -/
def c8E1 : GarminEntry := ⟨['E', '1'], ['C', 'A'], []⟩

/-- Entry of the lexicographically smaller catalog key `a b`. -/
def c8E2 : GarminEntry := ⟨['E', '2'], ['C', 'B'], []⟩

/-- The key `b a` (inserted first, sorts second). -/
def c8K1 : List Char := ['b', ' ', 'a']

/-- The key `a b` (inserted second, sorts first). -/
def c8K2 : List Char := ['a', ' ', 'b']

/-- A catalog whose two keys both token-sort to `a b`. -/
def c8Cat : Catalog := [(c8K1, c8E1), (c8K2, c8E2)]

/-- The query `a-b`, which token-sorts to `a b` and is not a key. -/
def c8Q : List Char := ['a', '-', 'b']

/-- A duration line for the name-then-duration rule witness. -/
def c10Line : List Char :=
  ['D', 'e', 'a', 'd', ' ', 'h', 'a', 'n', 'g', ' ', '-', ' ', '3', '0', ' ', 's', 'e', 'c']

/-! ## Lemmas: the normalizer on its own image. -/

/-- Code point of `pyLower`. -/
theorem pyLower_toNat (c : Char) :
    (pyLower c).toNat = if 65 ≤ c.toNat ∧ c.toNat ≤ 90 then c.toNat + 32 else c.toNat := by
  unfold pyLower
  split
  · rfl
  · rfl

/-- Characters outside A-Z are fixed by lower-casing. -/
theorem pyLower_eq_self_of (c : Char) (h : ¬(65 ≤ c.toNat ∧ c.toNat ≤ 90)) :
    pyLower c = c := by
  unfold pyLower
  rw [dif_neg h]

/-- Lower-casing is idempotent character-wise. -/
theorem pyLower_idem (c : Char) : pyLower (pyLower c) = pyLower c := by
  by_cases hr : 65 ≤ c.toNat ∧ c.toNat ≤ 90
  · have ht : (pyLower c).toNat = c.toNat + 32 := by rw [pyLower_toNat, if_pos hr]
    exact pyLower_eq_self_of _ (by omega)
  · rw [pyLower_eq_self_of c hr]
    exact pyLower_eq_self_of c hr

/-- Lower-casing does not change whether a character is whitespace. -/
theorem isPySpace_pyLower (c : Char) : isPySpace (pyLower c) = isPySpace c := by
  have h := pyLower_toNat c
  unfold isPySpace
  by_cases hr : 65 ≤ c.toNat ∧ c.toNat ≤ 90
  · rw [if_pos hr] at h
    rw [h, decide_eq_decide]
    omega
  · rw [if_neg hr] at h
    rw [h]

/-- Lower-casing does not change whether a character is kept by the
normalizer's character filter. -/
theorem keptChar_pyLower (c : Char) : keptChar (pyLower c) = keptChar c := by
  have h := pyLower_toNat c
  unfold keptChar isWordChar isPySpace
  by_cases hr : 65 ≤ c.toNat ∧ c.toNat ≤ 90
  · rw [if_pos hr] at h
    rw [h, decide_eq_decide]
    simp only [decide_eq_true_eq]
    omega
  · rw [if_neg hr] at h
    rw [h]

/-- A character in the image of lower-casing is fixed by lower-casing. -/
theorem pyLower_fix_of_mem_map {c : Char} {l : List Char}
    (h : c ∈ l.map pyLower) : pyLower c = c := by
  obtain ⟨a, _, rfl⟩ := List.mem_map.mp h
  exact pyLower_idem a

/-- `dropWhile` leaves a list whose head does not satisfy the predicate. -/
theorem dropWhile_head_not {p : Char → Bool} :
    ∀ (l : List Char) (c : Char), (l.dropWhile p).head? = some c → p c = false := by
  intro l
  induction l with
  | nil => intro c h; simp [List.dropWhile] at h
  | cons a t ih =>
    intro c h
    rw [List.dropWhile_cons] at h
    by_cases hp : p a
    · rw [if_pos hp] at h; exact ih c h
    · rw [if_neg hp] at h
      simp only [List.head?_cons, Option.some.injEq] at h
      rw [← h]
      exact Bool.not_eq_true _ ▸ (by simpa using hp)

/-- `dropWhile` is the identity when the head does not satisfy the
predicate. -/
theorem dropWhile_eq_self_of_head {p : Char → Bool} (l : List Char)
    (h : ∀ c, l.head? = some c → p c = false) : l.dropWhile p = l := by
  cases l with
  | nil => rfl
  | cons a t =>
    rw [List.dropWhile_cons, if_neg]
    simp [h a rfl]

/-- Membership in the stripped list implies membership in the original. -/
theorem mem_pyStrip {c : Char} {l : List Char} (h : c ∈ pyStrip l) : c ∈ l := by
  unfold pyStrip at h
  rw [List.mem_reverse] at h
  have h1 : c ∈ (l.dropWhile isPySpace).reverse := ((List.dropWhile_suffix _).sublist).mem h
  rw [List.mem_reverse] at h1
  exact ((List.dropWhile_suffix _).sublist).mem h1

/-- The head of a stripped list is not whitespace. -/
theorem pyStrip_head (l : List Char) (c : Char)
    (h : (pyStrip l).head? = some c) : isPySpace c = false := by
  unfold pyStrip at h
  rw [List.head?_reverse] at h
  obtain ⟨pre, hpre⟩ :=
    List.dropWhile_suffix (l := (l.dropWhile isPySpace).reverse) isPySpace
  by_cases hB : ((l.dropWhile isPySpace).reverse).dropWhile isPySpace = []
  · rw [hB] at h; simp at h
  · have h2 : ((l.dropWhile isPySpace).reverse).getLast? = some c := by
      rw [← hpre, List.getLast?_append_of_ne_nil pre hB]; exact h
    rw [List.getLast?_reverse] at h2
    exact dropWhile_head_not l c h2

/-- The last character of a stripped list is not whitespace. -/
theorem pyStrip_last (l : List Char) (c : Char)
    (h : (pyStrip l).getLast? = some c) : isPySpace c = false := by
  unfold pyStrip at h
  rw [List.getLast?_reverse] at h
  exact dropWhile_head_not _ c h

/-- Stripping is the identity on lists with non-whitespace ends. -/
theorem pyStrip_eq_self (l : List Char)
    (h1 : ∀ c, l.head? = some c → isPySpace c = false)
    (h2 : ∀ c, l.getLast? = some c → isPySpace c = false) : pyStrip l = l := by
  unfold pyStrip
  rw [dropWhile_eq_self_of_head l h1]
  rw [dropWhile_eq_self_of_head l.reverse
    (fun c hc => h2 c (by rwa [List.head?_reverse] at hc))]
  exact List.reverse_reverse l

/-- Collapsing never produces the empty list from a non-empty one. -/
theorem collapseWs_ne_nil : ∀ (l : List Char), l ≠ [] → collapseWs l ≠ [] := by
  intro l
  induction l with
  | nil => intro h; exact absurd rfl h
  | cons a t ih =>
    intro _
    cases t with
    | nil => simp [collapseWs]
    | cons b u =>
      unfold collapseWs
      split
      · exact ih (by simp)
      · simp

/-- Every character of the collapsed list is a space or came from the
original list. -/
theorem mem_collapseWs : ∀ (l : List Char) (c : Char), c ∈ collapseWs l → c = ' ' ∨ c ∈ l := by
  intro l
  induction l with
  | nil => intro c h; simp [collapseWs] at h
  | cons a t ih =>
    intro c h
    cases t with
    | nil =>
      unfold collapseWs at h
      rcases List.mem_singleton.mp h with h1
      by_cases hs : isPySpace a
      · rw [if_pos hs] at h1; exact Or.inl h1
      · rw [if_neg hs] at h1; exact Or.inr (by simp [h1])
    | cons b u =>
      unfold collapseWs at h
      by_cases hs : isPySpace a ∧ isPySpace b
      · rw [if_pos hs] at h
        rcases ih c h with h1 | h2
        · exact Or.inl h1
        · exact Or.inr (List.mem_cons_of_mem a h2)
      · rw [if_neg hs] at h
        rcases List.mem_cons.mp h with h1 | h2
        · by_cases ha : isPySpace a
          · rw [if_pos ha] at h1; exact Or.inl h1
          · rw [if_neg ha] at h1; exact Or.inr (by simp [h1])
        · rcases ih c h2 with h3 | h4
          · exact Or.inl h3
          · exact Or.inr (List.mem_cons_of_mem a h4)

/-- The head of the collapsed list is the original head when that head is
not whitespace. -/
theorem collapseWs_head_eq (a : Char) (t : List Char) (h : isPySpace a = false) :
    (collapseWs (a :: t)).head? = some a := by
  cases t with
  | nil => simp [collapseWs, h]
  | cons b u =>
    unfold collapseWs
    rw [if_neg (by simp [h])]
    simp [h]

/-- The last element of the collapsed list is the original last element
when that element is not whitespace. -/
theorem collapseWs_last_eq : ∀ (l : List Char) (c : Char),
    l.getLast? = some c → isPySpace c = false →
    (collapseWs l).getLast? = some c := by
  intro l
  induction l with
  | nil => intro c h _; simp at h
  | cons a t ih =>
    intro c h hc
    cases t with
    | nil =>
      simp only [List.getLast?_singleton, Option.some.injEq] at h
      subst h
      simp [collapseWs, hc]
    | cons b u =>
      have htail : (b :: u).getLast? = some c := by
        rw [← h]; exact List.getLast?_cons_cons.symm
      unfold collapseWs
      split
      · exact ih c htail hc
      · have hne : collapseWs (b :: u) ≠ [] := collapseWs_ne_nil _ (by simp)
        obtain ⟨z, Z, hzZ⟩ := List.exists_cons_of_ne_nil hne
        rw [hzZ, List.getLast?_cons_cons, ← hzZ]
        exact ih c htail hc

/-- Collapsing is the identity on lists satisfying the shape invariant. -/
theorem collapseWs_eq_self_of_wsFlat : ∀ (l : List Char), wsFlat l → collapseWs l = l := by
  intro l
  induction l with
  | nil => intro _; rfl
  | cons a t ih =>
    intro hf
    cases t with
    | nil =>
      unfold collapseWs
      by_cases hs : isPySpace a
      · rw [if_pos hs, hf hs]
      · rw [if_neg hs]
    | cons b u =>
      obtain ⟨h1, h2, h3⟩ := hf
      unfold collapseWs
      rw [if_neg h2]
      congr 1
      · by_cases hs : isPySpace a
        · rw [if_pos hs, h1 hs]
        · rw [if_neg hs]
      · exact ih h3

/-- The collapsed output always satisfies the shape invariant. -/
theorem wsFlat_collapseWs : ∀ (l : List Char), wsFlat (collapseWs l) := by
  intro l
  induction l with
  | nil => exact trivial
  | cons a t ih =>
    cases t with
    | nil =>
      unfold collapseWs wsFlat
      by_cases hs : isPySpace a
      · rw [if_pos hs]; intro _; rfl
      · rw [if_neg hs]; intro hcon; exact absurd hcon (by simp [hs])
    | cons b u =>
      unfold collapseWs
      by_cases hs : isPySpace a ∧ isPySpace b
      · rw [if_pos hs]; exact ih
      · rw [if_neg hs]
        have hne : collapseWs (b :: u) ≠ [] := collapseWs_ne_nil _ (by simp)
        obtain ⟨z, Z, hzZ⟩ := List.exists_cons_of_ne_nil hne
        rw [hzZ]
        refine ⟨?_, ?_, hzZ ▸ ih⟩
        · by_cases ha : isPySpace a
          · rw [if_pos ha]; intro _; rfl
          · rw [if_neg ha]; intro hcon; exact absurd hcon (by simp [ha])
        · by_cases ha : isPySpace a
          · rw [if_pos ha]
            have hb : isPySpace b = false := by
              rcases Decidable.not_and_iff_or_not.mp hs with h | h
              · exact absurd ha (by simpa using h)
              · simpa using h
            have hz : (collapseWs (b :: u)).head? = some b := collapseWs_head_eq b u hb
            rw [hzZ] at hz
            simp only [List.head?_cons, Option.some.injEq] at hz
            subst hz
            rintro ⟨_, hzspace⟩
            rw [hb] at hzspace
            exact Bool.false_ne_true hzspace
          · rw [if_neg ha]
            rintro ⟨haspace, _⟩
            exact ha haspace

/-- Collapsing whitespace runs is idempotent. -/
theorem collapseWs_idem (l : List Char) : collapseWs (collapseWs l) = collapseWs l :=
  collapseWs_eq_self_of_wsFlat _ (wsFlat_collapseWs l)

/-- A list whose characters are all fixed by lower-casing maps to itself. -/
theorem map_pyLower_eq_self (l : List Char) (h : ∀ c ∈ l, pyLower c = c) :
    l.map pyLower = l := by
  rw [List.map_congr_left h]
  simp

/-- The normalizer is a no-op on its own output whenever the input
contains only characters that the filter keeps. -/
theorem normalizeName_fixpoint_of_kept (s : List Char)
    (h : ∀ c ∈ s, keptChar c = true) :
    normalizeName (normalizeName s) = normalizeName s := by
  unfold normalizeName
  set A := pyStrip (s.map pyLower) with hA
  set r := collapseWs A with hr
  have hAmem : ∀ c ∈ A, c ∈ s.map pyLower := fun c hc => mem_pyStrip hc
  have hrkept : ∀ c ∈ r, keptChar c = true := by
    intro c hc
    rcases mem_collapseWs A c hc with hsp | hmem
    · subst hsp; decide
    · obtain ⟨a, ha, rfl⟩ := List.mem_map.mp (hAmem _ hmem)
      rw [keptChar_pyLower]
      exact h a ha
  have hfilter : r.filter keptChar = r := List.filter_eq_self.mpr hrkept
  rw [hfilter]
  -- now show the second normalization pass fixes r
  have hlowfix : ∀ c ∈ r, pyLower c = c := by
    intro c hc
    rcases mem_collapseWs A c hc with hsp | hmem
    · subst hsp; decide
    · exact pyLower_fix_of_mem_map (hAmem _ hmem)
  rw [map_pyLower_eq_self r hlowfix]
  have hstrip : pyStrip r = r := by
    apply pyStrip_eq_self
    · intro c hc
      cases hAe : A with
      | nil => rw [hr, hAe] at hc; simp [collapseWs] at hc
      | cons a t =>
        have hahd : isPySpace a = false := by
          apply pyStrip_head (s.map pyLower) a
          rw [← hA, hAe]
          rfl
        rw [hr, hAe, collapseWs_head_eq a t hahd] at hc
        simp only [Option.some.injEq] at hc
        subst hc
        exact hahd
    · intro c hc
      cases hAe : A with
      | nil => rw [hr, hAe] at hc; simp [collapseWs] at hc
      | cons a t =>
        have hne : A ≠ [] := by rw [hAe]; simp
        obtain ⟨z, hz⟩ := Option.isSome_iff_exists.mp
          ((List.getLast?_isSome).mpr hne)
        have hzlast : isPySpace z = false := by
          apply pyStrip_last (s.map pyLower) z
          rw [← hA]
          exact hz
        rw [hr, collapseWs_last_eq A z hz hzlast] at hc
        simp only [Option.some.injEq] at hc
        subst hc
        exact hzlast
  rw [hstrip]
  show List.filter keptChar (collapseWs r) = r
  rw [hr, collapseWs_idem, ← hr]
  exact hfilter

/-- Normalizing an all-whitespace string yields the empty string. -/
theorem normalizeName_of_all_ws (s : List Char)
    (h : ∀ c ∈ s, isPySpace c = true) : normalizeName s = [] := by
  unfold normalizeName
  have h1 : (s.map pyLower).dropWhile isPySpace = [] := by
    rw [List.dropWhile_eq_nil_iff]
    intro a ha
    obtain ⟨b, hb, rfl⟩ := List.mem_map.mp ha
    rw [isPySpace_pyLower]
    exact h b hb
  unfold pyStrip
  rw [h1]
  rfl

/-! ## Lemmas: dictionary and fuzzy-matcher behaviour. -/

/-- Lookup misses exactly the keys that are absent. -/
theorem dictLookup_eq_none_of_not_mem : ∀ (m : Catalog) (k : List Char),
    k ∉ dictKeys m → dictLookup m k = none := by
  intro m
  induction m with
  | nil => intro k _; rfl
  | cons p rest ih =>
    intro k hk
    obtain ⟨k', v⟩ := p
    unfold dictLookup
    rw [if_neg, ih k]
    · intro hmem
      exact hk (List.mem_cons_of_mem _ hmem)
    · intro heq
      subst heq
      exact hk (List.mem_cons_self _ _)

/-- Keys after a dict insert: the inserted key or an old key. -/
theorem dictKeys_dictInsert : ∀ (m : Catalog) (k : List Char) (v : GarminEntry),
    ∀ k' ∈ dictKeys (dictInsert m k v), k' = k ∨ k' ∈ dictKeys m := by
  intro m
  induction m with
  | nil =>
    intro k v k' h
    simp [dictInsert, dictKeys] at h
    exact Or.inl h
  | cons p rest ih =>
    intro k v k' h
    obtain ⟨k0, v0⟩ := p
    unfold dictInsert at h
    by_cases heq : k0 = k
    · rw [if_pos heq] at h
      rcases List.mem_cons.mp h with h1 | h2
      · exact Or.inl h1
      · exact Or.inr (List.mem_cons_of_mem _ h2)
    · rw [if_neg heq] at h
      rcases List.mem_cons.mp h with h1 | h2
      · exact Or.inr (by rw [h1]; exact List.mem_cons_self _ _)
      · rcases ih k v k' h2 with h3 | h4
        · exact Or.inl h3
        · exact Or.inr (List.mem_cons_of_mem _ h4)

/-- The fuzzy scan fails exactly on the empty catalog. -/
theorem bestFuzzy_eq_none_iff (q : List Char) (m : Catalog) :
    bestFuzzy q m = none ↔ m = [] := by
  cases m with
  | nil => simp [bestFuzzy]
  | cons p rest =>
    obtain ⟨k, e⟩ := p
    constructor
    · intro h
      unfold bestFuzzy at h
      cases hb : bestFuzzy q rest with
      | none => rw [hb] at h; simp at h
      | some b => rw [hb] at h; dsimp at h; split at h <;> simp at h
    · intro h; simp at h

/-- Characterization of `bestFuzzy`: it returns a catalog element carrying
its own score, every earlier element scores strictly lower, and no element
scores higher (the stable-top-1 semantics of `heapq.nlargest`). -/
theorem bestFuzzy_spec : ∀ (m : Catalog) (q k : List Char) (e : GarminEntry) (s : Nat),
    bestFuzzy q m = some (k, e, s) →
    s = tokenSortScore q k ∧
    ∃ l1 l2, m = l1 ++ (k, e) :: l2 ∧
      (∀ p ∈ l1, tokenSortScore q p.1 < s) ∧
      (∀ p ∈ m, tokenSortScore q p.1 ≤ s) := by
  intro m
  induction m with
  | nil => intro q k e s h; simp [bestFuzzy] at h
  | cons p rest ih =>
    intro q k e s h
    obtain ⟨k0, e0⟩ := p
    unfold bestFuzzy at h
    cases hb : bestFuzzy q rest with
    | none =>
      rw [hb] at h
      simp only [Option.some.injEq, Prod.mk.injEq] at h
      obtain ⟨hk, he, hs⟩ := h
      subst hk; subst he; subst hs
      have hrest : rest = [] := (bestFuzzy_eq_none_iff q rest).mp hb
      subst hrest
      refine ⟨rfl, [], [], rfl, by simp, ?_⟩
      intro p hp
      rcases List.mem_singleton.mp hp with rfl
      exact Nat.le_refl _
    | some b =>
      obtain ⟨k', e', s'⟩ := b
      rw [hb] at h
      dsimp at h
      obtain ⟨hs', hl1, hl2, hsplit, hlt, hle⟩ :=
        (fun hh => And.intro (ih q k' e' s' hh).1 (ih q k' e' s' hh).2) hb
      by_cases hcmp : tokenSortScore q k0 < s'
      · rw [if_pos hcmp] at h
        simp only [Option.some.injEq, Prod.mk.injEq] at h
        obtain ⟨hk, he, hs⟩ := h
        subst hk; subst he; subst hs
        refine ⟨hs', (k0, e0) :: hl1, hl2, by rw [hsplit]; rfl, ?_, ?_⟩
        · intro p hp
          rcases List.mem_cons.mp hp with rfl | hmem
          · exact hcmp
          · exact hlt p hmem
        · intro p hp
          rcases List.mem_cons.mp hp with rfl | hmem
          · exact Nat.le_of_lt hcmp
          · exact hle p hmem
      · rw [if_neg hcmp] at h
        simp only [Option.some.injEq, Prod.mk.injEq] at h
        obtain ⟨hk, he, hs⟩ := h
        subst hk; subst he; subst hs
        refine ⟨rfl, [], rest, rfl, by simp, ?_⟩
        intro p hp
        rcases List.mem_cons.mp hp with rfl | hmem
        · exact Nat.le_refl _
        · exact Nat.le_trans (hle p hmem) (Nat.le_of_not_lt hcmp)

/-- `lcs` of the empty string against anything is zero. -/
theorem lcsF_nil_left : ∀ (f : Nat) (t : List Char), lcsF f [] t = 0 := by
  intro f t
  cases f with
  | zero => rfl
  | succ n => rfl

/-- An empty processed query scores zero against any non-empty processed
candidate. -/
theorem indelSim_nil_left (t : List Char) (h : t ≠ []) : indelSim [] t = 0 := by
  unfold indelSim
  rw [if_neg (by simp [List.length_eq_zero, h])]
  unfold lcs
  rw [lcsF_nil_left]
  unfold pyRound
  have hd : 0 < t.length := List.length_pos.mpr h
  simp only [List.length_nil, Nat.zero_add, Nat.mul_zero, Nat.zero_div, Nat.zero_mod]
  rw [if_pos (by omega)]

/-- Exact hit: if the normalized name is a key, `map_exercise` returns its
entry with confidence 100. -/
theorem mapExercise_exact (m : Catalog) (name : List Char) (e : GarminEntry)
    (h : dictLookup m (normalizeName name) = some e) :
    mapExercise m name = (e, 100) := by
  unfold mapExercise
  rw [h]

/-- Accepted fuzzy hit: no exact key, and the best candidate scores at
least 70. -/
theorem mapExercise_fuzzy (m : Catalog) (name k : List Char) (e : GarminEntry) (s : Nat)
    (hn : dictLookup m (normalizeName name) = none)
    (hb : bestFuzzy (normalizeName name) m = some (k, e, s))
    (hs : 70 ≤ s) : mapExercise m name = (e, s) := by
  unfold mapExercise
  rw [hn, hb]
  dsimp
  rw [if_pos hs]

/-- Unknown fallback: no exact key and no accepted fuzzy candidate. -/
theorem mapExercise_unknown (m : Catalog) (name : List Char)
    (hn : dictLookup m (normalizeName name) = none)
    (hlow : ∀ k e s, bestFuzzy (normalizeName name) m = some (k, e, s) → s < 70) :
    mapExercise m name = (mkUnknown name, 0) := by
  unfold mapExercise
  rw [hn]
  cases hb : bestFuzzy (normalizeName name) m with
  | none => rfl
  | some b =>
    obtain ⟨k, e, s⟩ := b
    dsimp
    rw [if_neg (by exact Nat.not_le_of_lt (hlow k e s hb))]

/-! ## Lemmas: warning generation and step-structure generation. -/

/-- The warnings accumulated by the `parse_workout` loop are exactly the
low-confidence messages of the exercises it accumulates, in order. -/
theorem pwGo_warnings (m : Catalog) : ∀ (lines : List (List Char)) (sec : Option (List Char)),
    (pwGo m lines sec).2 = (pwGo m lines sec).1.filterMap warnOf := by
  intro lines
  induction lines with
  | nil => intro sec; rfl
  | cons line rest ih =>
    intro sec
    unfold pwGo
    split
    · exact ih _
    · cases hp : parseExerciseLine m (stripMarker (pyStrip line)) with
      | none => exact ih sec
      | some e =>
        dsimp only
        rw [List.filterMap_cons]
        by_cases hc : e.confidence < 70
        · have : warnOf { e with sectionTag := sec } =
              some (lowConfMsg { e with sectionTag := sec }) := by
            unfold warnOf
            rw [if_pos hc]
          rw [this, if_pos hc, ih sec]
          rfl
        · have : warnOf { e with sectionTag := sec } = none := by
            unfold warnOf
            rw [if_neg hc]
          rw [this, if_neg hc, ih sec]
          rfl

/-- Length of the generated step list. -/
theorem buildSteps_length : ∀ (exs : List ExRec) (so : Nat),
    (buildSteps exs so).length = exs.length := by
  intro exs
  induction exs with
  | nil => intro so; rfl
  | cons e rest ih => intro so; simp [buildSteps, ih]

/-- Index formula for the generated step list: the group at index `i` is
the repeat group of the `i`-th exercise at step order `so + 3 * i`. -/
theorem buildSteps_getElem? : ∀ (exs : List ExRec) (so i : Nat),
    (buildSteps exs so)[i]? = (exs[i]?).map (fun e => mkRepeatGroup e (so + 3 * i)) := by
  intro exs
  induction exs with
  | nil => intro so i; simp [buildSteps]
  | cons e rest ih =>
    intro so i
    cases i with
    | zero => simp [buildSteps]
    | succ n =>
      simp only [buildSteps, List.getElem?_cons_succ]
      rw [ih (so + 3) n]
      have harith : so + 3 + 3 * n = so + 3 * (n + 1) := by omega
      simp only [harith]

/-- The step orders of a generated repeat group. -/
theorem ordersOf_mkRepeatGroup (e : ExRec) (so : Nat) :
    ordersOf (mkRepeatGroup e so) = [so, so + 1, so + 2] := rfl

/-! ## Claim-level theorems. -/

/-- Claim C1 (evaluation at the failing input): parsing the single line
`2×30 sec Dead hang` over an empty catalog yields exactly one parsed line
and one warning, but that line is a Reps-kind record with sets 2, reps 30,
raw name `sec Dead hang` and canonical name `SEC_DEAD_HANG` — not the
Duration-kind record with duration 30 and canonical name `DEAD_HANG` that
the claim states: the `sets_reps_name` rule matches the line before the
`sets_duration_name` rule (whose own source comment names exactly this
input) can see it. -/
theorem c1_code_eval :
    (parseWorkout [] c1Line ['W']).exercises = [c1Expected] ∧
    (parseWorkout [] c1Line ['W']).warnings.length = 1 ∧
    c1Expected.kind = ExKind.reps ∧ c1Expected.durationSeconds = none := by
  refine ⟨by decide, by decide, rfl, rfl⟩

/-- Claim C2 (counterexample): with the single catalog key `bench press`,
resolving `Press Bench` — whose normalized form is not a key — still
returns confidence 100, because the token-sort score of a word permutation
is 100.  So confidence 100 does not imply an exact key match. -/
theorem c2_counterexample :
    mapExercise [(keyBench, entryBench)] qPressBench = (entryBench, 100) ∧
    dictLookup [(keyBench, entryBench)] (normalizeName qPressBench) = none := by
  refine ⟨by decide, by decide⟩

/-- Claim C2 (amended): the forward direction holds — whenever the
normalized name is an exact key of the catalog, `map_exercise` returns
that key's entry with confidence 100.  (The converse fails: a non-exact
fuzzy match can also score 100, as the counterexample shows.) -/
theorem c2_amended (m : Catalog) (name : List Char) (e : GarminEntry)
    (h : dictLookup m (normalizeName name) = some e) :
    mapExercise m name = (e, 100) :=
  mapExercise_exact m name e h

/-- Witness for the amended C2 at a concrete catalog and name. -/
theorem c2_witness :
    dictLookup [(keyBench, entryBench)] (normalizeName qBenchPress) = some entryBench ∧
    mapExercise [(keyBench, entryBench)] qBenchPress = (entryBench, 100) :=
  ⟨by decide, c2_amended [(keyBench, entryBench)] qBenchPress entryBench (by decide)⟩

/-- Claim C3 (counterexample): normalization is not idempotent — on the
input `a .` the first pass deletes the dot after whitespace has been
collapsed, leaving the trailing-space string `a `, which a second pass
shortens to `a`. -/
theorem c3_counterexample :
    normalizeName (normalizeName c3Bad) ≠ normalizeName c3Bad := by decide

/-- Claim C3 (amended): normalization is idempotent on every string made
of characters the filter keeps (word characters, whitespace, hyphen);
only the deletion of other characters can break idempotence. -/
theorem c3_amended (s : List Char) (h : ∀ c ∈ s, keptChar c = true) :
    normalizeName (normalizeName s) = normalizeName s :=
  normalizeName_fixpoint_of_kept s h

/-- Witness for the amended C3 at a concrete kept-characters string. -/
theorem c3_witness :
    (∀ c ∈ c3Kept, keptChar c = true) ∧
    normalizeName (normalizeName c3Kept) = normalizeName c3Kept :=
  ⟨by decide, c3_amended c3Kept (by decide)⟩

/-- Claim C4 (counterexample): the catalog invariant "every key equals its
own normalization" is violated by the code's own `add_mapping`: adding the
name `a .` (loaded storage empty) inserts the key `a `, and
`normalize('a ') = 'a' ≠ 'a '`. -/
theorem c4_counterexample :
    dictKeys (addMapping (loadMap (some [])) c3Bad ['G'] ['C'] []) = [['a', ' ']] ∧
    normalizeName ['a', ' '] ≠ ['a', ' '] := by
  refine ⟨by decide, by decide⟩

/-- Claim C4 (amended): if every key of the loaded storage document is
already a normalization fixpoint and every added name consists only of
kept characters, then after any sequence of `add_mapping` operations every
catalog key equals its own normalization. -/
theorem c4_amended (storage : Catalog) (ops : List AddOp)
    (hs : ∀ k ∈ dictKeys storage, normalizeName k = k)
    (hops : ∀ op ∈ ops, ∀ c ∈ op.aName, keptChar c = true) :
    ∀ k ∈ dictKeys (applyAdds (loadMap (some storage)) ops), normalizeName k = k := by
  have main : ∀ (l : List AddOp) (m : Catalog),
      (∀ k ∈ dictKeys m, normalizeName k = k) →
      (∀ op ∈ l, ∀ c ∈ op.aName, keptChar c = true) →
      ∀ k ∈ dictKeys (applyAdds m l), normalizeName k = k := by
    intro l
    induction l with
    | nil => intro m hm _ k hk; exact hm k hk
    | cons op rest ih =>
      intro m hm hops' k hk
      refine ih (addMapping m op.aName op.aGName op.aCategory op.aMuscles) ?_ ?_ k hk
      · intro k' hk'
        unfold addMapping at hk'
        rcases dictKeys_dictInsert m (normalizeName op.aName) _ k' hk' with h1 | h2
        · subst h1
          exact normalizeName_fixpoint_of_kept op.aName
            (hops' op (List.mem_cons_self _ _))
        · exact hm k' h2
      · intro op' hop'
        exact hops' op' (List.mem_cons_of_mem _ hop')
  exact main ops storage hs hops

/-- Witness for the amended C4: the storage key survives a clean add and
is still a normalization fixpoint. -/
theorem c4_witness :
    normalizeName ['p', 'u', 'l', 'l', ' ', 'u', 'p'] = ['p', 'u', 'l', 'l', ' ', 'u', 'p'] :=
  c4_amended c4Storage c4Ops (by decide) (by decide)
    ['p', 'u', 'l', 'l', ' ', 'u', 'p'] (by decide)

/-- Claim C5 (counterexample): the line `abc` is not blank, not a comment,
and matches no skip rule, yet `parse_exercise_line` returns nothing: the
fallback rule requires the line to be longer than three characters. -/
theorem c5_counterexample :
    pyStrip c5Bad = c5Bad ∧ c5Bad ≠ [] ∧ c5Bad.head? ≠ some '#' ∧
    c5Bad.take 2 ≠ ['/', '/'] ∧ isSkipLine c5Bad = false ∧
    parseExerciseLine [] c5Bad = none := by
  refine ⟨by decide, by decide, by decide, by decide, by decide, by decide⟩

/-- Claim C5 (amended): every line that, after stripping, is non-blank,
not a comment, matches no skip rule, is longer than three characters and
does not end with a colon, produces a parsed record — the fallback rule
catches whatever the six patterns do not. -/
theorem c5_amended (m : Catalog) (line : List Char)
    (h0 : pyStrip line ≠ [])
    (h1 : (pyStrip line).head? ≠ some '#')
    (h2 : (pyStrip line).take 2 ≠ ['/', '/'])
    (h3 : isSkipLine (pyStrip line) = false)
    (h4 : 3 < (pyStrip line).length)
    (h5 : (pyStrip line).getLast? ≠ some ':') :
    (parseExerciseLine m line).isSome = true := by
  unfold parseExerciseLine parseStripped
  rw [if_neg h0, if_neg h1, if_neg h2, if_neg (by simp [h3]), Option.isSome_map']
  unfold classify
  cases pSetsRepsName (pyStrip line) with
  | some b => simp
  | none =>
  cases pNameSetsReps (pyStrip line) with
  | some b => simp
  | none =>
  cases pVerbose (pyStrip line) with
  | some b => simp
  | none =>
  cases pSetsDurName (pyStrip line) with
  | some b => simp
  | none =>
  cases pDuration (pyStrip line) with
  | some b => simp
  | none =>
  cases pSetsOfName (pyStrip line) with
  | some b => simp
  | none =>
    dsimp only
    rw [if_pos ⟨h4, h5⟩]
    rfl

/-- Witness for the amended C5: a bare name line produces a record. -/
theorem c5_witness : (parseExerciseLine [] c5Good).isSome = true :=
  c5_amended [] c5Good (by decide) (by decide) (by decide) (by decide)
    (by decide) (by decide)

/-- Claim C6: for every input text, the warnings of `parse_workout` are
exactly one formatted low-confidence message per produced line whose
mapping confidence is below 70, in line order (the `filterMap` equation),
and hence warnings are non-empty exactly when some line's confidence is
below 70. -/
theorem c6_warnings (m : Catalog) (text wname : List Char) :
    (parseWorkout m text wname).warnings =
      (parseWorkout m text wname).exercises.filterMap warnOf ∧
    ((parseWorkout m text wname).warnings ≠ [] ↔
      ∃ e ∈ (parseWorkout m text wname).exercises, e.confidence < 70) := by
  have h := pwGo_warnings m (splitNL (pyStrip text)) none
  refine ⟨h, ?_, ?_⟩
  · intro hne
    by_contra hno
    push_neg at hno
    apply hne
    show (pwGo m (splitNL (pyStrip text)) none).2 = []
    rw [h]
    apply List.filterMap_eq_nil_iff.mpr
    intro e he
    unfold warnOf
    rw [if_neg (Nat.not_lt_of_le (hno e he))]
  · rintro ⟨e, he, hc⟩ hwe
    have hwe' : (pwGo m (splitNL (pyStrip text)) none).1.filterMap warnOf = [] := by
      rw [← h]; exact hwe
    have hnone := List.filterMap_eq_nil_iff.mp hwe' e he
    unfold warnOf at hnone
    rw [if_pos hc] at hnone
    exact Option.some_ne_none _ hnone

/-- Claim C7: for a parsed workout with K exercise lines, the generated
step structure has exactly K repeat groups; the group at index i is the
repeat group of exercise i at step order 1 + 3i, so it carries
`numberOfIterations = sets` and exactly one work step (order 2 + 3i)
followed by one rest step (order 3 + 3i); and all step orders of an
earlier group are strictly below all step orders of a later group. -/
theorem c7_step_structure (w : ParsedWorkout) :
    (toGarminFormat w).workoutSteps.length = w.exercises.length ∧
    (∀ i : Nat, (toGarminFormat w).workoutSteps[i]? =
      (w.exercises[i]?).map (fun e => mkRepeatGroup e (1 + 3 * i))) ∧
    (∀ (i : Nat) (e : ExRec), w.exercises[i]? = some e →
      ∃ g, (toGarminFormat w).workoutSteps[i]? = some g ∧
        g.numberOfIterations = e.sets ∧
        g.workoutSteps = [mkWorkStep e (1 + 3 * i + 1), mkRestStep (1 + 3 * i + 2)]) ∧
    (∀ (i j : Nat) (gi gj : RepeatGroup), i < j →
      (toGarminFormat w).workoutSteps[i]? = some gi →
      (toGarminFormat w).workoutSteps[j]? = some gj →
      ∀ a ∈ ordersOf gi, ∀ b ∈ ordersOf gj, a < b) := by
  have hidx : ∀ i : Nat, (toGarminFormat w).workoutSteps[i]? =
      (w.exercises[i]?).map (fun e => mkRepeatGroup e (1 + 3 * i)) := by
    intro i
    exact buildSteps_getElem? w.exercises 1 i
  refine ⟨buildSteps_length w.exercises 1, hidx, ?_, ?_⟩
  · intro i e he
    refine ⟨mkRepeatGroup e (1 + 3 * i), ?_, rfl, rfl⟩
    rw [hidx i, he]
    rfl
  · intro i j gi gj hij hgi hgj a ha b hb
    rw [hidx i] at hgi
    rw [hidx j] at hgj
    obtain ⟨ei, _, hgieq⟩ := Option.map_eq_some'.mp hgi
    obtain ⟨ej, _, hgjeq⟩ := Option.map_eq_some'.mp hgj
    rw [← hgieq, ordersOf_mkRepeatGroup] at ha
    rw [← hgjeq, ordersOf_mkRepeatGroup] at hb
    simp only [List.mem_cons, List.not_mem_nil, or_false] at ha hb
    rcases ha with rfl | rfl | rfl <;> rcases hb with rfl | rfl | rfl <;> omega

/-- Witness for C7 at a concrete two-line workout: two groups, and every
step order of the first group is below every step order of the second. -/
theorem c7_witness :
    (toGarminFormat c7W).workoutSteps.length = 2 ∧
    (∀ a ∈ ordersOf (mkRepeatGroup c7E1 1), ∀ b ∈ ordersOf (mkRepeatGroup c7E2 4), a < b) := by
  refine ⟨(c7_step_structure c7W).1, ?_⟩
  exact (c7_step_structure c7W).2.2.2 0 1 (mkRepeatGroup c7E1 1) (mkRepeatGroup c7E2 4)
    (by decide) (by decide) (by decide)

/-- Claim C8 (counterexample): with the catalog built in insertion order
`b a`, then `a b` — two keys that both token-sort to `a b` and therefore
both score 100 against the query `a-b` — resolution returns the entry of
the first-inserted key `b a`, not the entry of the lexicographically
smaller key `a b`. -/
theorem c8_counterexample :
    mapExercise c8Cat c8Q = (c8E1, 100) ∧
    dictLookup c8Cat (normalizeName c8Q) = none ∧
    tokenSortScore (normalizeName c8Q) c8K1 = 100 ∧
    tokenSortScore (normalizeName c8Q) c8K2 = 100 ∧
    lexLt c8K2 c8K1 = true ∧
    c8E1 ≠ c8E2 := by
  refine ⟨by decide, by decide, by decide, by decide, by decide, by decide⟩

/-- Claim C8 (amended): when no exact key matches and the best candidate
scores at least 70, resolution returns the entry of the first key in
catalog iteration (insertion) order among those attaining the maximal
score: the returned element splits the catalog so that everything before
it scores strictly lower and nothing anywhere scores higher. -/
theorem c8_amended (m : Catalog) (name k : List Char) (e : GarminEntry) (s : Nat)
    (hn : dictLookup m (normalizeName name) = none)
    (hb : bestFuzzy (normalizeName name) m = some (k, e, s))
    (hs : 70 ≤ s) :
    mapExercise m name = (e, s) ∧
    s = tokenSortScore (normalizeName name) k ∧
    ∃ l1 l2, m = l1 ++ (k, e) :: l2 ∧
      (∀ p ∈ l1, tokenSortScore (normalizeName name) p.1 < s) ∧
      (∀ p ∈ m, tokenSortScore (normalizeName name) p.1 ≤ s) :=
  ⟨mapExercise_fuzzy m name k e s hn hb hs,
   (bestFuzzy_spec m (normalizeName name) k e s hb).1,
   (bestFuzzy_spec m (normalizeName name) k e s hb).2⟩

/-- Witness for the amended C8 at the two-key tie catalog. -/
theorem c8_witness :
    mapExercise c8Cat c8Q = (c8E1, 100) ∧
    (100 : Nat) = tokenSortScore (normalizeName c8Q) c8K1 ∧
    ∃ l1 l2, c8Cat = l1 ++ (c8K1, c8E1) :: l2 ∧
      (∀ p ∈ l1, tokenSortScore (normalizeName c8Q) p.1 < 100) ∧
      (∀ p ∈ c8Cat, tokenSortScore (normalizeName c8Q) p.1 ≤ 100) :=
  c8_amended c8Cat c8Q c8K1 c8E1 100 (by decide) (by decide) (by decide)

/-- Claim C9 (counterexample): the fallback for empty or whitespace-only
names is not unconditional — adding a mapping under the whitespace-only
name ` ` inserts the empty key, after which resolving ` ` is an exact hit
with confidence 100 rather than the synthesized confidence-0 fallback. -/
theorem c9_counterexample :
    addMapping [] [' '] ['H', 'A', 'N', 'G'] ['S', 'T', 'R'] [] =
      [([], ⟨['H', 'A', 'N', 'G'], ['S', 'T', 'R'], []⟩)] ∧
    (mapExercise (addMapping [] [' '] ['H', 'A', 'N', 'G'] ['S', 'T', 'R'] []) [' ']).2 = 100 := by
  refine ⟨by decide, by decide⟩

/-- Claim C9 (amended): for a catalog in which no key is empty or reduces
to the empty token string, resolving an empty or whitespace-only raw name
does not fail and returns the synthesized fallback — canonical name the
upper-snake transform of the raw name, category `UNKNOWN`, no muscles —
with confidence 0. -/
theorem c9_amended (m : Catalog) (name : List Char)
    (hws : ∀ c ∈ name, isPySpace c = true)
    (hkeys : ∀ k ∈ dictKeys m, tokenSortProcess k ≠ []) :
    mapExercise m name = (mkUnknown name, 0) := by
  have hnorm : normalizeName name = [] := normalizeName_of_all_ws name hws
  apply mapExercise_unknown
  · rw [hnorm]
    apply dictLookup_eq_none_of_not_mem
    intro hmem
    exact hkeys [] hmem rfl
  · intro k e s hb
    obtain ⟨hs, l1, l2, hsplit, _, _⟩ := bestFuzzy_spec m (normalizeName name) k e s hb
    have hk : k ∈ dictKeys m := by
      rw [hsplit]
      unfold dictKeys
      rw [List.map_append]
      exact List.mem_append_right _ (List.mem_cons_self _ _)
    rw [hs]
    unfold tokenSortScore
    rw [hnorm]
    have hq : tokenSortProcess ([] : List Char) = [] := rfl
    rw [hq, indelSim_nil_left _ (hkeys k hk)]
    omega

/-- Witness for the amended C9: a double-space name over a one-entry
catalog resolves to the underscore fallback with confidence 0. -/
theorem c9_witness :
    mapExercise [(keyBench, entryBench)] [' ', ' '] = (mkUnknown [' ', ' '], 0) :=
  c9_amended [(keyBench, entryBench)] [' ', ' '] (by decide) (by decide)

/-- Claim C10: every line classified by the name-then-duration rule — the
first four patterns miss and the `duration` pattern matches with captured
name and seconds — produces a record with sets defaulted to 1 and kind
Duration carrying the captured seconds. -/
theorem c10_duration_default (m : Catalog) (line nm : List Char) (d : Nat)
    (h0 : pyStrip line ≠ [])
    (h1 : (pyStrip line).head? ≠ some '#')
    (h2 : (pyStrip line).take 2 ≠ ['/', '/'])
    (h3 : isSkipLine (pyStrip line) = false)
    (hp1 : pSetsRepsName (pyStrip line) = none)
    (hp2 : pNameSetsReps (pyStrip line) = none)
    (hp3 : pVerbose (pyStrip line) = none)
    (hp4 : pSetsDurName (pyStrip line) = none)
    (hp5 : pDuration (pyStrip line) = some (nm, d)) :
    ∃ r, parseExerciseLine m line = some r ∧ r.sets = 1 ∧
      r.kind = ExKind.duration ∧ r.durationSeconds = some d ∧
      r.rawName = pyStrip nm := by
  refine ⟨attachMapping m (pyStrip nm, 1, none, none, some d, ExKind.duration),
    ?_, rfl, rfl, rfl, rfl⟩
  unfold parseExerciseLine parseStripped classify
  rw [if_neg h0, if_neg h1, if_neg h2, if_neg (by simp [h3]),
    hp1, hp2, hp3, hp4, hp5]
  rfl

/-- Witness for C10 at the line `Dead hang - 30 sec`. -/
theorem c10_witness :
    ∃ r, parseExerciseLine [] c10Line = some r ∧ r.sets = 1 ∧
      r.kind = ExKind.duration ∧ r.durationSeconds = some 30 ∧
      r.rawName = pyStrip ['D', 'e', 'a', 'd', ' ', 'h', 'a', 'n', 'g'] :=
  c10_duration_default [] c10Line ['D', 'e', 'a', 'd', ' ', 'h', 'a', 'n', 'g'] 30
    (by decide) (by decide) (by decide) (by decide)
    (by decide) (by decide) (by decide) (by decide) (by decide)
